import Mathlib

/-!
Shallow embedding of the goimports-reviser import-rewriting engine: the
functions `combineImports`, `groupImports` and `fixImports` of the engine
source file, the dispatch logic of `main.go`, and spec-level models of the
components whose code is not among the provided sources (the Standard-Library
Registry, the Unused-Import Detector and the Alias Assigner of the `reviser`
package).
-/

namespace GoimportsReviser

/-- The hard-coded module-name constant consulted by the classifier
(the engine source declares `projectName = "goimport-reviser"`). -/
def projectName : String := "goimport-reviser"

/-- Modelled from the spec: the Standard-Library Registry
(`helper.StdPackages`), whose source is not provided. Per the spec it is a
static, read-only set of exact import-path strings of the language's own
standard distribution, each entry being the literal dependency identifier as
written, including the surrounding quote characters. -/
def stdPackages : List String :=
  ["\"bufio\"", "\"bytes\"", "\"fmt\"", "\"go/ast\"", "\"go/parser\"",
   "\"go/printer\"", "\"go/token\"", "\"log\"", "\"os\"", "\"sort\"",
   "\"strings\""]

/-- An `ast.ImportSpec`: an optional name (`Name` ident) and the path literal
(`Path.Value`, the quoted string exactly as written). -/
structure ImportSpec where
  name : Option String
  path : String
deriving DecidableEq, Repr

/-- The token of an `ast.GenDecl`: either `token.IMPORT` or any other token. -/
inductive Tok where
  | importTok : Tok
  | otherTok : Tok
deriving DecidableEq, Repr

/-- A top-level declaration: a `GenDecl` carrying a token and specs, or any
other declaration kind (function declarations etc.), kept opaque. -/
inductive Decl where
  | genDecl (tok : Tok) (specs : List ImportSpec) : Decl
  | otherDecl (payload : String) : Decl
deriving DecidableEq, Repr

/-- An `ast.File`: its list of top-level declarations. -/
structure File where
  decls : List Decl
deriving DecidableEq, Repr

/-- How `combineImports` renders one spec: `Name.String() ++ " " ++ Path.Value`
when a name is present, otherwise `Path.Value` alone. -/
def specString (s : ImportSpec) : String :=
  match s.name with
  | some n => n ++ " " ++ s.path
  | none => s.path

/-- The import strings contributed by one declaration: a `GenDecl` with
the import token yields its specs rendered by `specString`; anything else
yields nothing. -/
def declImports : Decl → List String
  | Decl.genDecl Tok.importTok specs => specs.map specString
  | _ => []

/-- `combineImports`: walk the declarations in order and collect the
rendered strings of every import declaration. No deduplication is
performed. -/
def combineImports (f : File) : List String :=
  f.decls.flatMap declImports

/-- The registry membership test `_, ok := helper.StdPackages[imprt]`. -/
def isStd (s : String) : Bool :=
  stdPackages.contains s

/-- The test `strings.Contains(imprt, projectName)`. -/
def containsProject (s : String) : Bool :=
  decide (projectName.data <:+: s.data)

/-- The loop body of `groupImports`: each string is appended to exactly one of
the three accumulators following the ordered decision (registry membership,
then module-name substring, else general). -/
def splitImports : List String → List String × List String × List String
  | [] => ([], [], [])
  | i :: rest =>
    let r := splitImports rest
    if isStd i then (i :: r.1, r.2.1, r.2.2)
    else if containsProject i then (r.1, i :: r.2.1, r.2.2)
    else (r.1, r.2.1, i :: r.2.2)

/-- Lexicographic comparison of character sequences by code point. For valid
UTF-8 encoded text, byte-wise lexicographic order coincides with code-point
lexicographic order, so this is the order `sort.Strings` uses. -/
def charsLe : List Char → List Char → Bool
  | [], _ => true
  | _ :: _, [] => false
  | a :: as, b :: bs =>
    if a.toNat < b.toNat then true
    else if b.toNat < a.toNat then false
    else charsLe as bs

/-- Byte-wise lexicographic order on strings, as a proposition. -/
def strLe (a b : String) : Prop :=
  charsLe a.data b.data = true

instance : DecidableRel strLe :=
  fun a b => inferInstanceAs (Decidable (charsLe a.data b.data = true))

/-- `sort.Strings`: ascending byte-wise lexicographic sort. -/
def sortStrings (l : List String) : List String :=
  l.insertionSort strLe

/-- `groupImports`: split into (standard, project, general) and sort each
group; the triple is returned in that order. -/
def groupImports (imports : List String) : List String × List String × List String :=
  let r := splitImports imports
  (sortStrings r.1, sortStrings r.2.1, sortStrings r.2.2)

/-- A rebuilt spec: `&ast.ImportSpec{Path: &ast.BasicLit{Value: s}}`, with no
name node. -/
def mkSpec (s : String) : ImportSpec :=
  ImportSpec.mk none s

/-- The blank separator spec `&ast.ImportSpec{Path: &ast.BasicLit{Value: ""}}`. -/
def blankSpec : ImportSpec :=
  ImportSpec.mk none ""

/-- One group-emitting loop of `fixImports`: emit a spec per entry and, when
the flag holds, a blank spec right after the last entry (the flag is only
consulted inside the loop, so an empty group emits nothing). -/
def groupSpecs : List String → Bool → List ImportSpec
  | [], _ => []
  | [x], flag => if flag then [mkSpec x, blankSpec] else [mkSpec x]
  | x :: y :: rest, flag => mkSpec x :: groupSpecs (y :: rest) flag

/-- The spec list rebuilt by `fixImports`: the standard loop appends a blank
after its last entry when `len(generalImports) > 0`; the general loop appends
a blank after its last entry when `len(generalImports) > 0` (the same test,
as written in the source); the project loop appends no blank. -/
def buildSpecs (stdImports generalImports projectImports : List String) : List ImportSpec :=
  groupSpecs stdImports (!generalImports.isEmpty)
    ++ groupSpecs generalImports (!generalImports.isEmpty)
    ++ projectImports.map mkSpec

/-- Whether a declaration is a `GenDecl` with the import token. -/
def isImportDecl : Decl → Bool
  | Decl.genDecl Tok.importTok _ => true
  | _ => false

/-- The per-declaration action of `fixImports`: an import declaration has its
specs replaced by the rebuilt list; every other declaration is untouched. -/
def fixDecl (stdImports generalImports projectImports : List String) : Decl → Decl
  | Decl.genDecl Tok.importTok _ =>
    Decl.genDecl Tok.importTok (buildSpecs stdImports generalImports projectImports)
  | d => d

/-- `fixImports`: apply `fixDecl` to every top-level declaration (each import
declaration receives the full rebuilt spec list). -/
def fixImports (f : File) (stdImports generalImports projectImports : List String) : File :=
  File.mk (f.decls.map (fixDecl stdImports generalImports projectImports))

/-- The per-file pipeline run by `main`: extract, group, rewrite. `groupImports`
returns (standard, project, general) and `fixImports` takes (standard,
general, project), exactly as at the call sites. -/
def execute (f : File) : File :=
  let imports := combineImports f
  let g := groupImports imports
  fixImports f g.1 g.2.2 g.2.1

/-- The printer-then-parser roundtrip on one declaration: a blank separator
spec prints as an empty line inside the import block and produces no spec when
the output is parsed again, while a spec whose path literal holds
`name "path"` prints as a named import and re-extracts to the same flattened
string; so at extraction level the roundtrip simply drops empty-path specs. -/
def reparseDecl : Decl → Decl
  | Decl.genDecl Tok.importTok specs =>
    Decl.genDecl Tok.importTok (specs.filter (fun s => s.path != ""))
  | d => d

/-- The printer-then-parser roundtrip on a whole file. -/
def reparse (f : File) : File :=
  File.mk (f.decls.map reparseDecl)

/-- The three groups of the classifier. -/
inductive Group where
  | standard : Group
  | project : Group
  | general : Group
deriving DecidableEq, Repr

/-- The classification decision exactly as the code's loop makes it. -/
def codeClassifier (s : String) : Group :=
  if isStd s then Group.standard
  else if containsProject s then Group.project
  else Group.general

/-- The spec's ordered classification decision, stated with an explicit
registry, module name and local-prefix list: exact registry match, else
module-name substring or local-prefix match, else general. -/
def specClassifier (registry : List String) (moduleName : String)
    (localPrefixes : List String) (path : String) : Group :=
  if registry.contains path then Group.standard
  else if decide (moduleName.data <:+: path.data)
      || localPrefixes.any (fun pre => decide (pre.data <+: path.data)) then Group.project
  else Group.general

/-- The walk driver `load` of `main.go`: the walk callback returns at once for
a directory and otherwise passes the path to the executor, so the executor is
invoked once per non-directory entry. An entry is a path paired with its
directory flag; the result is the sequence of paths handed to the executor. -/
def loadCalls (entries : List (String × Bool)) : List String :=
  (entries.filter (fun e => !e.2)).map (fun e => e.1)

/-- The dispatch at the end of `main` in `main.go`: the switch either walks a
directory (invoking the executor per discovered file) or, when `dir-path` is
empty, invokes the executor on `file-path`; after the switch the executor is
invoked on `file-path` once more, unconditionally. The result is the full
sequence of paths passed to the executor. -/
def mainDispatch (dirPath filePath : String) (walked : List (String × Bool)) : List String :=
  (if dirPath = "./..." then loadCalls walked
   else if dirPath = "./" then loadCalls walked
   else if dirPath ≠ "" then loadCalls walked
   else [filePath]) ++ [filePath]

/-- An import entry of the spec's data model: an unquoted dependency path and
an optional explicit alias. Used by the spec-modelled stages below. -/
structure SpecImport where
  path : String
  aliasName : Option String
deriving DecidableEq, Repr

/-- Helper for `lastSegment`: accumulate characters, restarting at each path
separator, and return the run after the final separator. -/
def lastSegmentAux (acc : List Char) : List Char → List Char
  | [] => acc.reverse
  | c :: rest => if c = '/' then lastSegmentAux [] rest else lastSegmentAux (c :: acc) rest

/-- Modelled from the spec: the final path segment, the substring after the
last path separator. -/
def lastSegment (p : String) : String :=
  String.mk (lastSegmentAux [] p.data)

/-- Modelled from the spec: the local name of an entry for the Unused-Import
Detector — the explicit alias if present, otherwise the final path segment. -/
def localName (e : SpecImport) : String :=
  match e.aliasName with
  | some a => a
  | none => lastSegment e.path

/-- Modelled from the spec: the Unused-Import Detector of the `reviser`
package, whose source is not provided. `refs` is the list of left-hand
identifiers of selector references found in the non-import body of the file.
An entry is retained iff its alias is the blank identifier or its local name
has at least one selector reference; otherwise it is dropped. -/
def removeUnused (refs : List String) (entries : List SpecImport) : List SpecImport :=
  entries.filter (fun e => decide (e.aliasName = some "_" ∨ localName e ∈ refs))

/-- Helper for the version-marker segmentation: split a character list at the
delimiters of path segments. -/
def splitSegsAux (acc : List Char) : List Char → List (List Char)
  | [] => [acc.reverse]
  | c :: rest =>
    if c = '/' || c = '.' then acc.reverse :: splitSegsAux [] rest
    else splitSegsAux (c :: acc) rest

/-- Modelled from the spec: the version-marker pattern — a lone letter
followed by one or more digits. -/
def isVersionMarker : List Char → Bool
  | c :: d :: rest => c.isAlpha && (d :: rest).all (fun x => x.isDigit)
  | _ => false

/-- Modelled from the spec: the Alias Assigner's inspection of a path. The
path is split into segments (the spec's example, where `gopkg.in/yaml.v3`
yields the alias `yaml`, shows that both the path separator and the dot
delimit the version marker's own segment); when the final segment matches the
version-marker pattern, the result is the segment immediately preceding it. -/
def versionAlias (p : String) : Option String :=
  match (splitSegsAux [] p.data).reverse with
  | last :: prev :: _ => if isVersionMarker last then some (String.mk prev) else none
  | _ => none

/-- Modelled from the spec: the Alias Assigner's action on one surviving
entry — an entry with an explicit alias is left as-is; an entry without one
receives the version-derived alias when the final segment matches the
pattern, and is left as-is otherwise. -/
def applyVersionAlias (e : SpecImport) : SpecImport :=
  match e.aliasName with
  | some _ => e
  | none =>
    match versionAlias e.path with
    | some a => SpecImport.mk e.path (some a)
    | none => e

/-- Modelled from the spec: the Alias Assigner applied to every surviving
entry. -/
def setAlias (entries : List SpecImport) : List SpecImport :=
  entries.map applyVersionAlias

/-! Order-theoretic facts about the byte-wise comparison. -/

theorem charsLe_total : ∀ x y : List Char, charsLe x y = true ∨ charsLe y x = true
  | [], _ => Or.inl rfl
  | _ :: _, [] => Or.inr rfl
  | a :: as, b :: bs => by
    rcases Nat.lt_trichotomy a.toNat b.toNat with h | h | h
    · exact Or.inl (by simp [charsLe, h])
    · have hab : ¬ a.toNat < b.toNat := by omega
      have hba : ¬ b.toNat < a.toNat := by omega
      rcases charsLe_total as bs with ih | ih
      · exact Or.inl (by simp [charsLe, hab, hba, ih])
      · exact Or.inr (by simp [charsLe, hab, hba, ih])
    · exact Or.inr (by simp [charsLe, h])

theorem charsLe_trans : ∀ x y z : List Char,
    charsLe x y = true → charsLe y z = true → charsLe x z = true
  | [], _, _, _, _ => rfl
  | a :: as, [], _, h1, _ => by simp [charsLe] at h1
  | _ :: _, _ :: _, [], _, h2 => by simp [charsLe] at h2
  | a :: as, b :: bs, c :: cs, h1, h2 => by
    by_cases hab : a.toNat < b.toNat
    · by_cases hbc : b.toNat < c.toNat
      · have : a.toNat < c.toNat := by omega
        simp [charsLe, this]
      · have hcb : ¬ c.toNat < b.toNat := by
          intro hcb
          simp [charsLe, hbc, hcb] at h2
        have : a.toNat < c.toNat := by omega
        simp [charsLe, this]
    · have hba : ¬ b.toNat < a.toNat := by
        intro hba
        simp [charsLe, hab, hba] at h1
      by_cases hbc : b.toNat < c.toNat
      · have : a.toNat < c.toNat := by omega
        simp [charsLe, this]
      · have hcb : ¬ c.toNat < b.toNat := by
          intro hcb
          simp [charsLe, hbc, hcb] at h2
        have hac : ¬ a.toNat < c.toNat := by omega
        have hca : ¬ c.toNat < a.toNat := by omega
        have h1' : charsLe as bs = true := by simpa [charsLe, hab, hba] using h1
        have h2' : charsLe bs cs = true := by simpa [charsLe, hbc, hcb] using h2
        simpa [charsLe, hac, hca] using charsLe_trans as bs cs h1' h2'

instance : IsTotal String strLe :=
  ⟨fun a b => charsLe_total a.data b.data⟩

instance : IsTrans String strLe :=
  ⟨fun a b c => charsLe_trans a.data b.data c.data⟩

/-! Facts about `sortStrings`. -/

theorem sortStrings_sorted (l : List String) : (sortStrings l).Sorted strLe :=
  List.sorted_insertionSort strLe l

theorem sortStrings_perm (l : List String) : (sortStrings l).Perm l :=
  List.perm_insertionSort strLe l

theorem mem_sortStrings {a : String} {l : List String} :
    a ∈ sortStrings l ↔ a ∈ l :=
  (sortStrings_perm l).mem_iff

theorem sortStrings_eq_of_sorted {l : List String} (h : l.Sorted strLe) :
    sortStrings l = l :=
  h.insertionSort_eq

theorem sortStrings_idem (l : List String) :
    sortStrings (sortStrings l) = sortStrings l :=
  sortStrings_eq_of_sorted (sortStrings_sorted l)

/-! Characterisation of the grouping loop. -/

theorem splitImports_eq (l : List String) :
    splitImports l =
      (l.filter isStd,
       l.filter (fun s => !isStd s && containsProject s),
       l.filter (fun s => !isStd s && !containsProject s)) := by
  induction l with
  | nil => rfl
  | cons i rest ih =>
    cases h1 : isStd i <;> cases h2 : containsProject i <;>
      simp [splitImports, ih, h1, h2, List.filter_cons]

theorem three_filter_perm (p q : α → Bool) (l : List α) :
    (l.filter p ++ ((l.filter fun a => !p a && q a) ++ (l.filter fun a => !p a && !q a))).Perm l := by
  have h1 : (l.filter fun a => !p a && q a) = (l.filter fun a => !p a).filter q := by
    rw [List.filter_filter]
    congr 1
    funext a
    cases q a <;> cases p a <;> rfl
  have h2 : (l.filter fun a => !p a && !q a) = (l.filter fun a => !p a).filter (fun a => !q a) := by
    rw [List.filter_filter]
    congr 1
    funext a
    cases q a <;> cases p a <;> rfl
  rw [h1, h2]
  exact (List.Perm.append_left (l.filter p)
      (List.filter_append_perm q (l.filter fun a => !p a))).trans
    (List.filter_append_perm p l)

theorem groupImports_parts_perm (l : List String) :
    ((groupImports l).1 ++ ((groupImports l).2.1 ++ (groupImports l).2.2)).Perm l := by
  have hs := splitImports_eq l
  have e1 : (groupImports l).1 = sortStrings (splitImports l).1 := rfl
  have e2 : (groupImports l).2.1 = sortStrings (splitImports l).2.1 := rfl
  have e3 : (groupImports l).2.2 = sortStrings (splitImports l).2.2 := rfl
  rw [e1, e2, e3, hs]
  exact (List.Perm.append (sortStrings_perm _)
      (List.Perm.append (sortStrings_perm _) (sortStrings_perm _))).trans
    (three_filter_perm isStd containsProject l)

/-! Rebuilding already-grouped lists is stable. -/

theorem groupImports_of_parts (s p g : List String)
    (hs : ∀ x ∈ s, isStd x = true)
    (hp : ∀ x ∈ p, isStd x = false ∧ containsProject x = true)
    (hg : ∀ x ∈ g, isStd x = false ∧ containsProject x = false) :
    groupImports (s ++ g ++ p) = (sortStrings s, sortStrings p, sortStrings g) := by
  unfold groupImports
  rw [splitImports_eq]
  simp only [List.filter_append]
  have e1 : s.filter isStd = s :=
    List.filter_eq_self.mpr (fun a ha => hs a ha)
  have e2 : g.filter isStd = [] :=
    List.filter_eq_nil_iff.mpr (fun a ha => by simp [(hg a ha).1])
  have e3 : p.filter isStd = [] :=
    List.filter_eq_nil_iff.mpr (fun a ha => by simp [(hp a ha).1])
  have e4 : (s.filter fun x => !isStd x && containsProject x) = [] :=
    List.filter_eq_nil_iff.mpr (fun a ha => by simp [hs a ha])
  have e5 : (g.filter fun x => !isStd x && containsProject x) = [] :=
    List.filter_eq_nil_iff.mpr (fun a ha => by simp [(hg a ha).2])
  have e6 : (p.filter fun x => !isStd x && containsProject x) = p :=
    List.filter_eq_self.mpr (fun a ha => by simp [(hp a ha).1, (hp a ha).2])
  have e7 : (s.filter fun x => !isStd x && !containsProject x) = [] :=
    List.filter_eq_nil_iff.mpr (fun a ha => by simp [hs a ha])
  have e8 : (g.filter fun x => !isStd x && !containsProject x) = g :=
    List.filter_eq_self.mpr (fun a ha => by simp [(hg a ha).1, (hg a ha).2])
  have e9 : (p.filter fun x => !isStd x && !containsProject x) = [] :=
    List.filter_eq_nil_iff.mpr (fun a ha => by simp [(hp a ha).2])
  rw [e1, e2, e3, e4, e5, e6, e7, e8, e9]
  simp

theorem mem_groups_of_mem {l : List String} {x : String} :
    (x ∈ (groupImports l).1 ∨ x ∈ (groupImports l).2.1 ∨ x ∈ (groupImports l).2.2) → x ∈ l := by
  intro hx
  apply (groupImports_parts_perm l).subset
  rcases hx with h | h | h
  · exact List.mem_append_left _ h
  · exact List.mem_append_right _ (List.mem_append_left _ h)
  · exact List.mem_append_right _ (List.mem_append_right _ h)

theorem groupImports_fixpoint (l : List String) :
    groupImports ((groupImports l).1 ++ (groupImports l).2.2 ++ (groupImports l).2.1)
      = groupImports l := by
  have hG : groupImports l =
      (sortStrings (l.filter isStd),
       sortStrings (l.filter fun s => !isStd s && containsProject s),
       sortStrings (l.filter fun s => !isStd s && !containsProject s)) := by
    unfold groupImports
    rw [splitImports_eq]
  have hs : ∀ x ∈ (groupImports l).1, isStd x = true := by
    intro x hx
    rw [hG] at hx
    have hx' := mem_sortStrings.mp hx
    exact List.of_mem_filter hx'
  have hp : ∀ x ∈ (groupImports l).2.1, isStd x = false ∧ containsProject x = true := by
    intro x hx
    rw [hG] at hx
    have hx' := List.of_mem_filter (mem_sortStrings.mp hx)
    constructor
    · cases h : isStd x
      · rfl
      · rw [h] at hx'
        simp at hx'
    · cases h : containsProject x
      · rw [h] at hx'
        simp at hx'
      · rfl
  have hg : ∀ x ∈ (groupImports l).2.2, isStd x = false ∧ containsProject x = false := by
    intro x hx
    rw [hG] at hx
    have hx' := List.of_mem_filter (mem_sortStrings.mp hx)
    constructor
    · cases h : isStd x
      · rfl
      · rw [h] at hx'
        simp at hx'
    · cases h : containsProject x
      · rfl
      · rw [h] at hx'
        simp at hx'
  rw [groupImports_of_parts _ _ _ hs hp hg]
  rw [hG]
  simp only [sortStrings_idem]

/-! Declaration-level facts about rewriting and the reparse roundtrip. -/

theorem nonimport_fixDecl {d : Decl} (h : isImportDecl d = false) (s g p : List String) :
    fixDecl s g p d = d := by
  cases d with
  | genDecl tok specs =>
    cases tok with
    | importTok => simp [isImportDecl] at h
    | otherTok => rfl
  | otherDecl payload => rfl

theorem nonimport_reparseDecl {d : Decl} (h : isImportDecl d = false) :
    reparseDecl d = d := by
  cases d with
  | genDecl tok specs =>
    cases tok with
    | importTok => simp [isImportDecl] at h
    | otherTok => rfl
  | otherDecl payload => rfl

theorem nonimport_declImports {d : Decl} (h : isImportDecl d = false) :
    declImports d = [] := by
  cases d with
  | genDecl tok specs =>
    cases tok with
    | importTok => simp [isImportDecl] at h
    | otherTok => rfl
  | otherDecl payload => rfl

theorem fixDecl_roundtrip (s g p : List String) (d : Decl) :
    fixDecl s g p (reparseDecl (fixDecl s g p d)) = fixDecl s g p d := by
  cases d with
  | genDecl tok specs => cases tok <;> rfl
  | otherDecl payload => rfl

theorem groupSpecs_filter {items : List String} (flag : Bool) (h : "" ∉ items) :
    (groupSpecs items flag).filter (fun x => x.path != "") = items.map mkSpec := by
  induction items with
  | nil => rfl
  | cons x xs ih =>
    have hx : x ≠ "" := fun he => h (he ▸ List.mem_cons_self x xs)
    have hxs : "" ∉ xs := fun hm => h (List.mem_cons_of_mem x hm)
    cases xs with
    | nil =>
      cases flag <;>
        simp [groupSpecs, List.filter_cons, mkSpec, blankSpec, bne_iff_ne, hx]
    | cons y ys =>
      simp only [groupSpecs, List.filter_cons]
      have hxp : ((mkSpec x).path != "") = true := by
        simp [mkSpec, bne_iff_ne, hx]
      simp [hxp, ih hxs]

theorem filter_map_mkSpec {items : List String} (h : "" ∉ items) :
    (items.map mkSpec).filter (fun x => x.path != "") = items.map mkSpec := by
  apply List.filter_eq_self.mpr
  intro a ha
  obtain ⟨x, hx, rfl⟩ := List.mem_map.mp ha
  simp only [mkSpec, bne_iff_ne]
  exact fun he => h (he ▸ hx)

theorem map_specString_mkSpec (items : List String) :
    (items.map mkSpec).map specString = items := by
  rw [List.map_map]
  have : (specString ∘ mkSpec) = id := by
    funext x
    rfl
  rw [this, List.map_id]

theorem declImports_roundtrip {s g p : List String}
    (hs : "" ∉ s) (hg : "" ∉ g) (hp : "" ∉ p) (specs : List ImportSpec) :
    declImports (reparseDecl (fixDecl s g p (Decl.genDecl Tok.importTok specs)))
      = s ++ g ++ p := by
  show ((buildSpecs s g p).filter (fun x => x.path != "")).map specString = s ++ g ++ p
  unfold buildSpecs
  rw [List.filter_append, List.filter_append]
  rw [groupSpecs_filter _ hs, groupSpecs_filter _ hg, filter_map_mkSpec hp]
  rw [List.map_append, List.map_append]
  rw [map_specString_mkSpec, map_specString_mkSpec, map_specString_mkSpec]

/-! File-level facts about the pipeline and the reparse roundtrip. -/

theorem execute_def (f : File) :
    execute f = fixImports f (groupImports (combineImports f)).1
      (groupImports (combineImports f)).2.2 (groupImports (combineImports f)).2.1 :=
  rfl

theorem flatMap_roundtrip_zero (s g p : List String) (decls : List Decl)
    (h : ∀ d ∈ decls, isImportDecl d = false) :
    decls.flatMap (fun d => declImports (reparseDecl (fixDecl s g p d))) = [] := by
  apply List.flatMap_eq_nil_iff.mpr
  intro d hd
  rw [nonimport_fixDecl (h d hd), nonimport_reparseDecl (h d hd)]
  exact nonimport_declImports (h d hd)

theorem flatMap_roundtrip_one {s g p : List String}
    (hs : "" ∉ s) (hg : "" ∉ g) (hp : "" ∉ p) :
    ∀ decls : List Decl, decls.countP isImportDecl = 1 →
      decls.flatMap (fun d => declImports (reparseDecl (fixDecl s g p d))) = s ++ g ++ p := by
  intro decls
  induction decls with
  | nil =>
    intro h
    rw [List.countP_nil] at h
    exact absurd h (by decide)
  | cons d rest ih =>
    intro h
    rw [List.countP_cons] at h
    cases hd : isImportDecl d
    · rw [hd] at h
      simp only [Bool.false_eq_true, if_false, Nat.add_zero] at h
      rw [List.flatMap_cons]
      rw [nonimport_fixDecl hd, nonimport_reparseDecl hd, nonimport_declImports hd]
      rw [List.nil_append]
      exact ih h
    · rw [hd] at h
      simp only [if_true] at h
      have hrest : rest.countP isImportDecl = 0 := by omega
      have hall : ∀ x ∈ rest, isImportDecl x = false := by
        intro x hx
        have := List.countP_eq_zero.mp hrest x hx
        cases hxx : isImportDecl x
        · rfl
        · exact absurd hxx this
      rw [List.flatMap_cons, flatMap_roundtrip_zero s g p rest hall, List.append_nil]
      obtain ⟨specs, rfl⟩ : ∃ specs, d = Decl.genDecl Tok.importTok specs := by
        cases d with
        | genDecl tok specs =>
          cases tok with
          | importTok => exact ⟨specs, rfl⟩
          | otherTok => simp [isImportDecl] at hd
        | otherDecl payload => simp [isImportDecl] at hd
      exact declImports_roundtrip hs hg hp specs

theorem combineImports_eq_nil {f : File}
    (h : ∀ d ∈ f.decls, isImportDecl d = false) :
    combineImports f = [] := by
  apply List.flatMap_eq_nil_iff.mpr
  intro d hd
  exact nonimport_declImports (h d hd)

theorem combineImports_roundtrip (f : File)
    (hcount : f.decls.countP isImportDecl ≤ 1)
    (hempty : "" ∉ combineImports f) :
    combineImports (reparse (execute f)) =
      (groupImports (combineImports f)).1 ++ (groupImports (combineImports f)).2.2
        ++ (groupImports (combineImports f)).2.1 := by
  have hs : "" ∉ (groupImports (combineImports f)).1 :=
    fun hx => hempty (mem_groups_of_mem (Or.inl hx))
  have hp : "" ∉ (groupImports (combineImports f)).2.1 :=
    fun hx => hempty (mem_groups_of_mem (Or.inr (Or.inl hx)))
  have hg : "" ∉ (groupImports (combineImports f)).2.2 :=
    fun hx => hempty (mem_groups_of_mem (Or.inr (Or.inr hx)))
  have hshape : combineImports (reparse (execute f)) =
      f.decls.flatMap (fun d => declImports (reparseDecl
        (fixDecl (groupImports (combineImports f)).1
          (groupImports (combineImports f)).2.2
          (groupImports (combineImports f)).2.1 d))) := by
    rw [execute_def]
    show (f.decls.map _ |>.map reparseDecl).flatMap declImports = _
    rw [List.map_map, List.flatMap_map]
    rfl
  rw [hshape]
  rcases Nat.le_one_iff_eq_zero_or_eq_one.mp hcount with h0 | h1
  · have hall : ∀ d ∈ f.decls, isImportDecl d = false := by
      intro d hd
      have := List.countP_eq_zero.mp h0 d hd
      cases hdd : isImportDecl d
      · rfl
      · exact absurd hdd this
    rw [flatMap_roundtrip_zero _ _ _ _ hall]
    rw [combineImports_eq_nil hall]
    rfl
  · exact flatMap_roundtrip_one hs hg hp f.decls h1

theorem fixImports_reparse_fixImports (f : File) (a b c : List String) :
    fixImports (reparse (fixImports f a b c)) a b c = fixImports f a b c := by
  simp only [fixImports, reparse, List.map_map]
  congr 1
  have h : (fixDecl a b c ∘ reparseDecl ∘ fixDecl a b c) = fixDecl a b c := by
    funext d
    exact fixDecl_roundtrip a b c d
  rw [h]

theorem execute_roundtrip (f : File)
    (hcount : f.decls.countP isImportDecl ≤ 1)
    (hempty : "" ∉ combineImports f) :
    execute (reparse (execute f)) = execute f := by
  rw [execute_def (reparse (execute f))]
  rw [combineImports_roundtrip f hcount hempty]
  rw [groupImports_fixpoint]
  rw [execute_def f]
  exact fixImports_reparse_fixImports f _ _ _

theorem fixImports_nonimport {f : File}
    (hall : ∀ d ∈ f.decls, isImportDecl d = false) (a b c : List String) :
    fixImports f a b c = f := by
  cases f with
  | mk decls =>
    show File.mk (decls.map (fixDecl a b c)) = File.mk decls
    congr 1
    rw [show decls.map (fixDecl a b c) = decls.map id from
      List.map_congr_left (fun d hd => nonimport_fixDecl (hall d hd) a b c)]
    exact List.map_id decls

theorem stdPackages_no_space : ∀ x ∈ stdPackages, ' ' ∉ x.data := by
  decide

/-! The claims. -/

/-- C1: every extracted import entry is classified by the ordered decision of
the spec — exact Standard-Library-Registry match gives Standard, else a
module-name substring match (or a match of one of the local prefixes, of
which this program has none, so the prefix list is empty) gives Project, else
General — and `groupImports` partitions and sorts accordingly. -/
theorem c1_classification :
    (∀ s : String, codeClassifier s = specClassifier stdPackages projectName [] s)
  ∧ (∀ imports : List String,
      groupImports imports =
        (sortStrings (imports.filter fun s => codeClassifier s == Group.standard),
         sortStrings (imports.filter fun s => codeClassifier s == Group.project),
         sortStrings (imports.filter fun s => codeClassifier s == Group.general))) := by
  constructor
  · intro s
    simp [codeClassifier, specClassifier, isStd, containsProject]
  · intro imports
    have h1 : (fun s => codeClassifier s == Group.standard) = isStd := by
      funext s
      unfold codeClassifier
      cases h : isStd s
      · cases hc : containsProject s <;> simp [h, hc]
      · simp [h]
    have h2 : (fun s => codeClassifier s == Group.project)
        = (fun s => !isStd s && containsProject s) := by
      funext s
      unfold codeClassifier
      cases h : isStd s
      · cases hc : containsProject s <;> simp [h, hc]
      · simp [h]
    have h3 : (fun s => codeClassifier s == Group.general)
        = (fun s => !isStd s && !containsProject s) := by
      funext s
      unfold codeClassifier
      cases h : isStd s
      · cases hc : containsProject s <;> simp [h, hc]
      · simp [h]
    rw [h1, h2, h3]
    show (sortStrings (splitImports imports).1, sortStrings (splitImports imports).2.1,
          sortStrings (splitImports imports).2.2) = _
    rw [splitImports_eq]

/-- C2 divergence, evaluated on the code: with one General entry and no
Project entries the rebuilt block carries a blank separator after the last
non-empty group, and with Standard and Project entries but no General ones
the two adjacent non-empty groups are emitted with no blank line between
them; the claim requires exactly one blank line between adjacent non-empty
groups and none after the last. -/
theorem c2_separator_divergence :
    buildSpecs [] ["\"github.com/x/y\""] [] =
      [mkSpec "\"github.com/x/y\"", blankSpec]
  ∧ buildSpecs ["\"fmt\""] [] ["\"github.com/incu6us/goimport-reviser/helper\""] =
      [mkSpec "\"fmt\"", mkSpec "\"github.com/incu6us/goimport-reviser/helper\""]
  ∧ execute (File.mk [Decl.genDecl Tok.importTok [ImportSpec.mk none "\"github.com/x/y\""]]) =
      File.mk [Decl.genDecl Tok.importTok [mkSpec "\"github.com/x/y\"", blankSpec]] := by
  refine ⟨by decide, by decide, by decide⟩

/-- C3 counterexample: a file importing `"fmt"` twice flows through the whole
pipeline with both occurrences kept, so the output has two entries with an
identical path and the claimed dedup invariant fails. -/
theorem c3_duplicate_paths :
    combineImports (execute (File.mk [Decl.genDecl Tok.importTok
        [ImportSpec.mk none "\"fmt\"", ImportSpec.mk none "\"fmt\""]]))
      = ["\"fmt\"", "\"fmt\""]
  ∧ ¬ (combineImports (execute (File.mk [Decl.genDecl Tok.importTok
        [ImportSpec.mk none "\"fmt\"", ImportSpec.mk none "\"fmt\""]]))).Nodup := by
  refine ⟨by decide, by decide⟩

/-- C3 amended: no deduplication is performed anywhere — grouping preserves
every extracted occurrence with its multiplicity, the three groups together
being a permutation of the extracted list, so duplicate paths survive to the
output. -/
theorem c3_no_dedup :
    ∀ imports : List String,
      ((groupImports imports).1
        ++ ((groupImports imports).2.1 ++ (groupImports imports).2.2)).Perm imports :=
  groupImports_parts_perm

/-- C4: within each of the three groups produced by `groupImports`, the
entries are sorted ascending under byte-wise lexicographic order (for valid
UTF-8, byte-wise order on the encoding and code-point order coincide, and
`strLe` is code-point order), so consecutive entries satisfy
`entry[i] <= entry[i+1]`. -/
theorem c4_intragroup_sorted :
    ∀ imports : List String,
      ((groupImports imports).1.Sorted strLe)
    ∧ ((groupImports imports).2.1.Sorted strLe)
    ∧ ((groupImports imports).2.2.Sorted strLe) := by
  intro imports
  exact ⟨List.sorted_insertionSort strLe _, List.sorted_insertionSort strLe _,
    List.sorted_insertionSort strLe _⟩

/-- C5: with `RemoveUnusedImports` set, an entry is retained iff its alias is
the blank identifier or its local name has a selector reference in the file
body, so every unreferenced entry is dropped and every referenced one kept;
in particular a file importing `fmt` and `example.com/proj/unused` where only
`fmt.Println` is referenced keeps `fmt` and drops the unused path. -/
theorem c5_unused_removal :
    (∀ (refs : List String) (entries : List SpecImport) (e : SpecImport),
        e ∈ removeUnused refs entries ↔
          e ∈ entries ∧ (e.aliasName = some "_" ∨ localName e ∈ refs))
  ∧ removeUnused ["fmt"]
      [SpecImport.mk "fmt" none, SpecImport.mk "example.com/proj/unused" none]
      = [SpecImport.mk "fmt" none] := by
  constructor
  · intro refs entries e
    simp [removeUnused, List.mem_filter]
  · decide

/-- C6: with `UseAliasForVersionSuffix` set, a surviving entry without an
explicit alias whose final segment matches the version-marker pattern is
re-emitted with the preceding segment as its alias, entries with an explicit
alias are untouched, and `gopkg.in/yaml.v3` is re-emitted as alias `yaml`. -/
theorem c6_version_alias :
    (∀ (l : List SpecImport) (e : SpecImport) (a : String),
        e ∈ l → e.aliasName = none → versionAlias e.path = some a →
          SpecImport.mk e.path (some a) ∈ setAlias l)
  ∧ (∀ (l : List SpecImport) (e : SpecImport),
        e ∈ l → e.aliasName ≠ none → e ∈ setAlias l)
  ∧ versionAlias "gopkg.in/yaml.v3" = some "yaml"
  ∧ setAlias [SpecImport.mk "gopkg.in/yaml.v3" none]
      = [SpecImport.mk "gopkg.in/yaml.v3" (some "yaml")] := by
  refine ⟨?_, ?_, by decide, by decide⟩
  · intro l e a hl hn hv
    have he : applyVersionAlias e = SpecImport.mk e.path (some a) := by
      cases e with
      | mk p0 al =>
        cases al with
        | none => simp [applyVersionAlias, hv]
        | some x => simp at hn
    exact he ▸ List.mem_map_of_mem applyVersionAlias hl
  · intro l e hl hn
    have he : applyVersionAlias e = e := by
      cases e with
      | mk p0 al =>
        cases al with
        | none => simp at hn
        | some x => rfl
    exact he ▸ List.mem_map_of_mem applyVersionAlias hl

/-- C6 witness: the theorem applied to the concrete `gopkg.in/yaml.v3`
example. -/
theorem c6_version_alias_witness :
    SpecImport.mk "gopkg.in/yaml.v3" (some "yaml")
      ∈ setAlias [SpecImport.mk "gopkg.in/yaml.v3" none] :=
  c6_version_alias.1 [SpecImport.mk "gopkg.in/yaml.v3" none]
    (SpecImport.mk "gopkg.in/yaml.v3" none) "yaml" (by decide) rfl (by decide)

/-- C7: the rewriting stage modifies only import declarations — `fixDecl`
leaves every non-import declaration exactly as parsed — and for a file with
no import declaration the extractor returns the empty list and the rewrite
stage (and the whole pipeline) leaves the file unchanged. -/
theorem c7_frame_preservation :
    ∀ (s g p : List String) (f : File),
      (∀ d : Decl, isImportDecl d = false → fixDecl s g p d = d)
    ∧ ((∀ d ∈ f.decls, isImportDecl d = false) →
          combineImports f = [] ∧ fixImports f s g p = f ∧ execute f = f) := by
  intro s g p f
  constructor
  · intro d hd
    exact nonimport_fixDecl hd s g p
  · intro hall
    refine ⟨combineImports_eq_nil hall, fixImports_nonimport hall s g p, ?_⟩
    rw [execute_def f]
    exact fixImports_nonimport hall _ _ _

/-- C7 witness: the theorem applied to a concrete one-declaration file with
no imports. -/
theorem c7_frame_preservation_witness :
    combineImports (File.mk [Decl.otherDecl "func main"]) = []
  ∧ fixImports (File.mk [Decl.otherDecl "func main"]) [] [] []
      = File.mk [Decl.otherDecl "func main"]
  ∧ execute (File.mk [Decl.otherDecl "func main"])
      = File.mk [Decl.otherDecl "func main"] := by
  have h := (c7_frame_preservation [] [] [] (File.mk [Decl.otherDecl "func main"])).2
    (by decide)
  exact ⟨h.1, h.2.1, h.2.2⟩

/-- C8 counterexample: on a file with two import declarations the rewrite
stage installs the full combined list into each declaration, so re-running
the pipeline on the (reparsed) output doubles every entry and the second run
reports a change; idempotence fails. -/
theorem c8_not_idempotent :
    combineImports (execute (File.mk
        [Decl.genDecl Tok.importTok [ImportSpec.mk none "\"a\""],
         Decl.genDecl Tok.importTok [ImportSpec.mk none "\"b\""]]))
      = ["\"a\"", "\"b\"", "", "\"a\"", "\"b\"", ""]
  ∧ combineImports (execute (reparse (execute (File.mk
        [Decl.genDecl Tok.importTok [ImportSpec.mk none "\"a\""],
         Decl.genDecl Tok.importTok [ImportSpec.mk none "\"b\""]]))))
      = ["\"a\"", "\"a\"", "\"b\"", "\"b\"", "", "\"a\"", "\"a\"", "\"b\"", "\"b\"", ""]
  ∧ execute (reparse (execute (File.mk
        [Decl.genDecl Tok.importTok [ImportSpec.mk none "\"a\""],
         Decl.genDecl Tok.importTok [ImportSpec.mk none "\"b\""]])))
      ≠ execute (File.mk
        [Decl.genDecl Tok.importTok [ImportSpec.mk none "\"a\""],
         Decl.genDecl Tok.importTok [ImportSpec.mk none "\"b\""]]) := by
  refine ⟨by decide, by decide, by decide⟩

/-- C8 amended: for a file with at most one import declaration and no
empty-string import entry, the pipeline is idempotent — applying the
extract-classify-rewrite pipeline to the parsed form of its own output
reproduces that output exactly, so the second run reports no change. -/
theorem c8_idempotent_single_import_decl :
    ∀ f : File, f.decls.countP isImportDecl ≤ 1 → "" ∉ combineImports f →
      execute (reparse (execute f)) = execute f :=
  execute_roundtrip

/-- C8 witness: the amended theorem applied to a concrete file with a
single import declaration holding two unsorted entries. -/
theorem c8_idempotent_single_import_decl_witness :
    execute (reparse (execute (File.mk
        [Decl.genDecl Tok.importTok
          [ImportSpec.mk none "\"github.com/x/y\"", ImportSpec.mk none "\"fmt\""],
         Decl.otherDecl "func main"])))
      = execute (File.mk
        [Decl.genDecl Tok.importTok
          [ImportSpec.mk none "\"github.com/x/y\"", ImportSpec.mk none "\"fmt\""],
         Decl.otherDecl "func main"]) :=
  c8_idempotent_single_import_decl (File.mk
      [Decl.genDecl Tok.importTok
        [ImportSpec.mk none "\"github.com/x/y\"", ImportSpec.mk none "\"fmt\""],
       Decl.otherDecl "func main"])
    (by decide) (by decide)

/-- C9 divergence, evaluated on the code: with an empty `dir-path` and
`file-path` set to `a.go`, the dispatch at the end of `main` passes `a.go` to
the executor twice — once in the switch and once in the unconditional call
after it — while the claim requires exactly one invocation per file. -/
theorem c9_executor_called_twice :
    mainDispatch "" "a.go" [] = ["a.go", "a.go"]
  ∧ (mainDispatch "" "a.go" []).count "a.go" = 2 := by
  refine ⟨by decide, by decide⟩

/-- C10: extraction flattens an aliased import into the single string
`alias "path"`, which is what classification and sorting compare — such a
string contains a space, and no Standard-Library-Registry entry does, so an
aliased standard-library import never matches the registry (the aliased
`fmt` lands in General) — and emission stores the combined string as the
path literal of a spec with no name node, while sorting is driven by the
alias-prefixed string. -/
theorem c10_flattened_alias :
    (∀ n p : String, specString (ImportSpec.mk (some n) p) = n ++ " " ++ p
        ∧ specString (ImportSpec.mk (some n) p) ∉ stdPackages)
  ∧ combineImports (File.mk
      [Decl.genDecl Tok.importTok [ImportSpec.mk (some "f") "\"fmt\""]]) = ["f \"fmt\""]
  ∧ groupImports ["f \"fmt\""] = ([], [], ["f \"fmt\""])
  ∧ buildSpecs [] ["f \"fmt\""] []
      = [ImportSpec.mk none "f \"fmt\"", ImportSpec.mk none ""]
  ∧ sortStrings ["b \"a\"", "a \"z\""] = ["a \"z\"", "b \"a\""] := by
  refine ⟨?_, by decide, by decide, by decide, by decide⟩
  intro n p
  refine ⟨rfl, ?_⟩
  intro hmem
  have hsp : ' ' ∉ (specString (ImportSpec.mk (some n) p)).data :=
    stdPackages_no_space _ hmem
  apply hsp
  show ' ' ∈ (n ++ " " ++ p).data
  rw [String.data_append, String.data_append]
  exact List.mem_append_left _ (List.mem_append_right _ (by decide))

end GoimportsReviser
